import Mathlib

/-!
Verification of `derive_lit` (src/lib.rs).

`derive_lit` is a Rust crate of four derive generators (`VecLit`,
`VecFrontLit`, `SetLit`, `MapLit`).  Each one receives the syntax tree of an
annotated type declaration and, when the declaration is a plain struct, emits
a declarative `macro_rules!` definition named after the snake-cased type name.
The emitted macro builds a value by calling the type's zero-argument
constructor `new` and then one mutation method per literal element
(`push`, `push_front`, `insert`, or the two-argument `insert`).

This file shallow-embeds

* the name transform `to_snake_case` (the `heck` crate's algorithm, which
  `src/lib.rs` calls on the type identifier), over an ASCII model of Rust's
  character classification, with characters as `Nat` Unicode scalar values;
* the relevant fragment of `syn`'s `DeriveInput` (identifier plus the
  struct/enum/union shape with its payload);
* the four generator functions of `src/lib.rs` (`derive_vec_lit`,
  `derive_vec_front_lit`, `derive_set_lit`, `derive_map_lit`), with the
  `panic!("expected a struct")` modelled as `Except.error`;
* the single parsing rule of each emitted macro (`macro_rules!` separated
  repetition `$($elem:expr),*` resp. `$($key:expr => $val:expr),*`, which
  matches no trailing separator) and the expansion it produces: the block
  `{ let mut temp = Struct::new(); temp.m(e); ...; temp }`, as an explicit
  call list plus an evaluation semantics over an arbitrary target type.
-/

namespace DeriveLit

/-! ## Characters and strings

Characters are Unicode scalar values, as in Rust.  The classification and
case functions model Rust's `char::is_uppercase`, `char::is_lowercase`,
`char::is_alphanumeric` and ASCII lowercasing on the ASCII range, which is
the range Rust identifiers in this crate's domain use. -/

/-- Convert a Lean string literal to the character-list model; a character
is its Unicode scalar value, a `Nat`, as in Rust's `char`. -/
def ofStr (s : String) : List Nat := s.data.map Char.toNat

/-- ASCII model of Rust `char::is_uppercase`. -/
def isUpperA (c : Nat) : Bool := decide (65 ≤ c ∧ c ≤ 90)

/-- ASCII model of Rust `char::is_lowercase`. -/
def isLowerA (c : Nat) : Bool := decide (97 ≤ c ∧ c ≤ 122)

/-- ASCII model of Rust `char::is_numeric` restricted to ASCII digits. -/
def isDigitA (c : Nat) : Bool := decide (48 ≤ c ∧ c ≤ 57)

/-- ASCII model of Rust `char::is_alphanumeric`. -/
def isAlnumA (c : Nat) : Bool := isUpperA c || isLowerA c || isDigitA c

/-- ASCII model of Rust lowercasing: `'A'..'Z'` shift by 32, all else fixed. -/
def toLowerA (c : Nat) : Nat := if isUpperA c then c + 32 else c

/-! ## The `heck` snake-case transform

`src/lib.rs` derives each macro name by `name.to_string().to_snake_case()`
from the `heck` crate.  `heck` splits the input on non-alphanumeric
characters, splits each resulting chunk at camel-case word boundaries with a
three-state scanner, lowercases every word and joins the words with `_`.
The definitions below transcribe that algorithm. -/

/-- Rust `str::split` on a character predicate: separator characters are
dropped and split points produce (possibly empty) pieces; splitting never
yields an empty list of pieces. -/
def rsplit (p : Nat → Bool) : List Nat → List (List Nat)
  | [] => [[]]
  | c :: rest =>
    if p c then [] :: rsplit p rest
    else
      match rsplit p rest with
      | w :: ws => (c :: w) :: ws
      | [] => [[c]]

/-- The scanner state of `heck`'s `transform` loop: nothing cased seen yet in
the current word, last cased character lowercase, or last cased character
uppercase. -/
inductive WordMode
  | boundary
  | lower
  | upper
deriving DecidableEq, Repr

/-- One step of `heck`'s word scanner over an alphanumeric chunk.  `acc` is
the current word being accumulated (the chunk slice since the last emitted
boundary), `c` the current character, the list argument the remaining
characters.  A boundary falls after `c` when the mode including `c` is
lowercase and the next character is uppercase, and before `c` when the
previous mode was uppercase, `c` is uppercase and the next character is
lowercase. -/
def splitChunkAux (mode : WordMode) (acc : List Nat) (c : Nat) :
    List Nat → List (List Nat)
  | [] => [acc ++ [c]]
  | next :: rest =>
    let nextMode :=
      if isLowerA c then WordMode.lower
      else if isUpperA c then WordMode.upper
      else mode
    if nextMode = WordMode.lower ∧ isUpperA next then
      (acc ++ [c]) :: splitChunkAux WordMode.boundary [] next rest
    else if mode = WordMode.upper ∧ isUpperA c ∧ isLowerA next then
      acc :: splitChunkAux WordMode.boundary [c] next rest
    else
      splitChunkAux nextMode (acc ++ [c]) next rest

/-- Split one alphanumeric chunk into camel-case words; an empty chunk
contributes no word. -/
def splitChunk : List Nat → List (List Nat)
  | [] => []
  | c :: rest => splitChunkAux WordMode.boundary [] c rest

/-- All words of an input string, in order: split on non-alphanumeric
characters, then split every chunk at camel-case boundaries. -/
def heckWords (s : List Nat) : List (List Nat) :=
  ((rsplit (fun c => !isAlnumA c) s).map splitChunk).flatten

/-- Join words with a separator, writing the separator exactly between
consecutive words, as `heck`'s boundary callback does. -/
def joinSep (sep : List Nat) : List (List Nat) → List Nat
  | [] => []
  | [w] => w
  | w :: x :: rest => w ++ sep ++ joinSep sep (x :: rest)

/-- The full `to_snake_case` of `heck`: every word lowercased, words joined with `_`
(character 95). -/
def to_snake_case (s : List Nat) : List Nat :=
  joinSep [95] ((heckWords s).map (List.map toLowerA))

example : to_snake_case (ofStr "MyStruct") = ofStr "my_struct" := by decide
example : to_snake_case (ofStr "AbcDef") = ofStr "abc_def" := by decide
example : to_snake_case (ofStr "XMLHttpRequest") = ofStr "xml_http_request" := by
  decide

/-! ## The input syntax tree

The fragment of `syn::DeriveInput` the generators read: the declared
identifier and the `Data` shape.  The field payload of a struct and the
payloads of enums and unions are carried so that independence from them is
statable, but—as in the source, which matches `Data::Struct(_)`—no generator
inspects them. -/

/-- The field layout of a struct declaration (`syn::Fields`): named fields,
a tuple of unnamed fields, or a unit struct. -/
inductive Fields
  | named (names : List (List Nat))
  | unnamed (arity : Nat)
  | unit
deriving DecidableEq, Repr

/-- The shape of a declaration (`syn::Data`), with its payload. -/
inductive Data
  | dstruct (fields : Fields)
  | denum (variants : List (List Nat))
  | dunion (fields : Fields)
deriving DecidableEq, Repr

/-- The annotated declaration (`syn::DeriveInput`): identifier and shape. -/
structure DeriveInput where
  ident : List Nat
  data : Data
deriving DecidableEq, Repr

/-- The shape discriminant alone, payload forgotten. -/
inductive Shape
  | sstruct
  | senum
  | sunion
deriving DecidableEq, Repr

/-- Discriminant of a `Data` value. -/
def shapeOf : Data → Shape
  | Data.dstruct _ => Shape.sstruct
  | Data.denum _ => Shape.senum
  | Data.dunion _ => Shape.sunion

/-! ## The emitted macro definition

Each generator emits one `macro_rules!` definition with a single rule.  The
rule is recorded as the delimiter its matcher is written with, the pattern
kind (`$($elem:expr),*` or `$($key:expr => $val:expr),*`), and the mutation
method name the transcriber calls on `temp` once per matched element. -/

/-- A `macro_rules!` matcher delimiter as written in the source tokens.
(Rust lets callers invoke a `macro_rules!` macro with any of the three
delimiters regardless of the one the rule is written with.) -/
inductive Delim
  | paren
  | bracket
  | brace
deriving DecidableEq, Repr

/-- The pattern kind of the single rule: a comma-separated expression
repetition, or a comma-separated `key => value` repetition. -/
inductive RulePat
  | exprList
  | pairList
deriving DecidableEq, Repr

/-- The single rule of an emitted macro. -/
structure GenRule where
  matcherDelim : Delim
  pat : RulePat
  methodName : List Nat
deriving DecidableEq, Repr

/-- An emitted `macro_rules!` definition: its name, the struct name its
transcriber constructs, and its single rule. -/
structure GenDef where
  name : List Nat
  structName : List Nat
  rule : GenRule
deriving DecidableEq, Repr

/-! ## The four generators

Each transcribes one function of `src/lib.rs`.  The source computes
`macro_name` from the snake-cased identifier, then matches on the shape:
any non-struct shape hits `panic!("expected a struct")`, modelled here as
`Except.error`; a struct shape (whatever its fields) reaches the `quote!`
block, modelled as the `GenDef` it denotes. -/

/-- Model of `derive_vec_lit` (src/lib.rs lines 34–65): rule
`( $( $elem:expr ),* )`, mutation call `temp.push($elem)`. -/
def derive_vec_lit (input : DeriveInput) : Except (List Nat) GenDef :=
  let name := input.ident
  let mName := to_snake_case name
  let structName := name
  match input.data with
  | Data.dstruct _ =>
    Except.ok
      { name := mName, structName := structName,
        rule := { matcherDelim := Delim.paren, pat := RulePat.exprList,
                  methodName := ofStr "push" } }
  | _ => Except.error (ofStr "expected a struct")

/-- Model of `derive_vec_front_lit` (src/lib.rs lines 82–113): rule
`( $( $elem:expr ),* )`, mutation call `temp.push_front($elem)`. -/
def derive_vec_front_lit (input : DeriveInput) : Except (List Nat) GenDef :=
  let name := input.ident
  let mName := to_snake_case name
  let structName := name
  match input.data with
  | Data.dstruct _ =>
    Except.ok
      { name := mName, structName := structName,
        rule := { matcherDelim := Delim.paren, pat := RulePat.exprList,
                  methodName := ofStr "push_front" } }
  | _ => Except.error (ofStr "expected a struct")

/-- Model of `derive_set_lit` (src/lib.rs lines 130–161): rule
`( $( $elem:expr ),* )`, mutation call `temp.insert($elem)`. -/
def derive_set_lit (input : DeriveInput) : Except (List Nat) GenDef :=
  let name := input.ident
  let mName := to_snake_case name
  let structName := name
  match input.data with
  | Data.dstruct _ =>
    Except.ok
      { name := mName, structName := structName,
        rule := { matcherDelim := Delim.paren, pat := RulePat.exprList,
                  methodName := ofStr "insert" } }
  | _ => Except.error (ofStr "expected a struct")

/-- Model of `derive_map_lit` (src/lib.rs lines 182–214): rule
`{ $($key:expr => $val:expr),* }`, mutation call `temp.insert($key, $val)`. -/
def derive_map_lit (input : DeriveInput) : Except (List Nat) GenDef :=
  let name := input.ident
  let mName := to_snake_case name
  let structName := name
  match input.data with
  | Data.dstruct _ =>
    Except.ok
      { name := mName, structName := structName,
        rule := { matcherDelim := Delim.brace, pat := RulePat.pairList,
                  methodName := ofStr "insert" } }
  | _ => Except.error (ofStr "expected a struct")

/-! ## Matching an invocation

An invocation's argument token stream, at the granularity the two patterns
distinguish: expression fragments, the `,` separator and the `=>` of a pair.
`macro_rules!` separated repetition `$(..),*` matches zero or more
repetitions with the separator strictly between them, the whole stream
consumed, and no trailing separator. -/

/-- A token of an invocation's argument stream, with `α` the type of
expression fragments. -/
inductive Tok (α : Type)
  | expr (e : α)
  | comma
  | fatArrow
deriving DecidableEq, Repr

/-- Match `$( $elem:expr ),*` against a token stream: the empty stream, one
expression, or an expression, a comma, and a nonempty remainder matching the
same pattern.  Anything else—in particular a trailing comma—fails. -/
def matchExprSeq {α : Type} : List (Tok α) → Option (List α)
  | [] => some []
  | [Tok.expr e] => some [e]
  | Tok.expr e :: Tok.comma :: t :: rest =>
    (matchExprSeq (t :: rest)).map (fun es => e :: es)
  | _ => none

/-- Match `$( $key:expr => $val:expr ),*` against a token stream. -/
def matchPairSeq {α : Type} : List (Tok α) → Option (List (α × α))
  | [] => some []
  | [Tok.expr k, Tok.fatArrow, Tok.expr v] => some [(k, v)]
  | Tok.expr k :: Tok.fatArrow :: Tok.expr v :: Tok.comma :: t :: rest =>
    (matchPairSeq (t :: rest)).map (fun ps => (k, v) :: ps)
  | _ => none

/-- The token stream a caller writes for the literal `e1, ..., en`. -/
def toksOfExprs {α : Type} (es : List α) : List (Tok α) :=
  List.intersperse Tok.comma (es.map Tok.expr)

/-- The token stream a caller writes for `k1 => v1, ..., kn => vn`. -/
def toksOfPairs {α : Type} : List (α × α) → List (Tok α)
  | [] => []
  | [(k, v)] => [Tok.expr k, Tok.fatArrow, Tok.expr v]
  | (k, v) :: p :: rest =>
    Tok.expr k :: Tok.fatArrow :: Tok.expr v :: Tok.comma :: toksOfPairs (p :: rest)

/-! ## The expansion and its evaluation

The transcriber of every rule is the block
`{ let mut temp = Struct::new(); temp.m(..); ...; temp }`: one constructor
call, one mutation call per matched element in matched order, and the block's
final expression is `temp`.  An `Expansion` records the call statements and
whether the block returns `temp`; `evalExpansion` runs it against an
arbitrary implementation of the target type. -/

/-- One statement of the expanded block: the constructor call
`Struct::new(args..)` binding `temp`, or a method call `temp.m(args..)`. -/
inductive Call (α : Type)
  | ctor (structName : List Nat) (args : List α)
  | method (methodName : List Nat) (args : List α)
deriving DecidableEq, Repr

/-- The expanded block: its statements in order, and whether its final
expression is the `temp` variable. -/
structure Expansion (α : Type) where
  stmts : List (Call α)
  returnsTemp : Bool
deriving DecidableEq, Repr

/-- Expand an invocation of an emitted macro: match the rule's pattern, then
emit the constructor call followed by one mutation call per element, in
order, with the block returning `temp`. -/
def expandGen {α : Type} (g : GenDef) (toks : List (Tok α)) :
    Option (Expansion α) :=
  match g.rule.pat with
  | RulePat.exprList =>
    (matchExprSeq toks).map (fun es =>
      { stmts := Call.ctor g.structName [] ::
          es.map (fun e => Call.method g.rule.methodName [e]),
        returnsTemp := true })
  | RulePat.pairList =>
    (matchPairSeq toks).map (fun ps =>
      { stmts := Call.ctor g.structName [] ::
          ps.map (fun p => Call.method g.rule.methodName [p.1, p.2]),
        returnsTemp := true })

/-- Run the mutation statements of a block against an implementation of the
target type; a second constructor call would be ill-formed. -/
def runMethods {σ α : Type} (methodFn : σ → List Nat → List α → σ) :
    σ → List (Call α) → Option σ
  | st, [] => some st
  | st, Call.method m args :: rest => runMethods methodFn (methodFn st m args) rest
  | _, Call.ctor _ _ :: _ => none

/-- Evaluate an expanded block: the first statement must be the constructor
call, the rest mutation calls, and the block must return `temp`; the result
is the constructed value after the mutations. -/
def evalExpansion {σ α : Type} (newFn : List Nat → List α → σ)
    (methodFn : σ → List Nat → List α → σ) (e : Expansion α) : Option σ :=
  match e.stmts with
  | Call.ctor s args :: rest =>
    if e.returnsTemp then runMethods methodFn (newFn s args) rest else none
  | _ => none

/-! ## Helper lemmas -/

/-- The matcher recovers exactly the literal sequence the caller wrote. -/
theorem matchExprSeq_toksOfExprs {α : Type} :
    (es : List α) → matchExprSeq (toksOfExprs es) = some es
  | [] => rfl
  | [_] => rfl
  | e :: e2 :: rest => by
    have ih := matchExprSeq_toksOfExprs (e2 :: rest)
    cases rest with
    | nil => rfl
    | cons e3 rs =>
      rw [show toksOfExprs (e :: e2 :: e3 :: rs) =
          Tok.expr e :: Tok.comma :: toksOfExprs (e2 :: e3 :: rs) from rfl]
      rw [show toksOfExprs (e2 :: e3 :: rs) =
          Tok.expr e2 :: Tok.comma :: toksOfExprs (e3 :: rs) from rfl] at ih ⊢
      simp [matchExprSeq, ih]

/-- The pair matcher recovers exactly the pair sequence the caller wrote. -/
theorem matchPairSeq_toksOfPairs {α : Type} :
    (ps : List (α × α)) → matchPairSeq (toksOfPairs ps) = some ps
  | [] => rfl
  | [(_, _)] => rfl
  | (k, v) :: (k2, v2) :: rest => by
    have ih := matchPairSeq_toksOfPairs ((k2, v2) :: rest)
    cases rest with
    | nil => rfl
    | cons p3 rs =>
      obtain ⟨k3, v3⟩ := p3
      rw [show toksOfPairs ((k, v) :: (k2, v2) :: (k3, v3) :: rs) =
          Tok.expr k :: Tok.fatArrow :: Tok.expr v :: Tok.comma ::
            toksOfPairs ((k2, v2) :: (k3, v3) :: rs) from rfl]
      rw [show toksOfPairs ((k2, v2) :: (k3, v3) :: rs) =
          Tok.expr k2 :: Tok.fatArrow :: Tok.expr v2 :: Tok.comma ::
            toksOfPairs ((k3, v3) :: rs) from rfl] at ih ⊢
      simp [matchPairSeq, ih]

/-- Running the per-element mutation statements folds the mutation over the
elements in order. -/
theorem runMethods_map_single {σ α : Type} (methodFn : σ → List Nat → List α → σ)
    (m : List Nat) (st : σ) (es : List α) :
    runMethods methodFn st (es.map fun e => Call.method m [e]) =
      some (es.foldl (fun st e => methodFn st m [e]) st) := by
  induction es generalizing st with
  | nil => rfl
  | cons e rest ih => simp [runMethods, ih]

/-- Running the per-pair mutation statements folds the two-argument mutation
over the pairs in order. -/
theorem runMethods_map_pair {σ α : Type} (methodFn : σ → List Nat → List α → σ)
    (m : List Nat) (st : σ) (ps : List (α × α)) :
    runMethods methodFn st (ps.map fun p => Call.method m [p.1, p.2]) =
      some (ps.foldl (fun st p => methodFn st m [p.1, p.2]) st) := by
  induction ps generalizing st with
  | nil => rfl
  | cons p rest ih => simp [runMethods, ih]

/-- Folding prepend over a list reverses it. -/
theorem foldl_prepend_reverse {α : Type} (es acc : List α) :
    es.foldl (fun st e => e :: st) acc = es.reverse ++ acc := by
  induction es generalizing acc with
  | nil => simp
  | cons e rest ih => simp [ih]

/-- A nonempty literal sequence followed by a trailing comma does not match
the expression-repetition pattern. -/
theorem matchExprSeq_trailing {α : Type} :
    (e : α) → (es : List α) →
      matchExprSeq (toksOfExprs (e :: es) ++ [Tok.comma]) = none
  | _, [] => rfl
  | e, e2 :: rest => by
    have ih := matchExprSeq_trailing e2 rest
    cases rest with
    | nil => rfl
    | cons e3 rs =>
      rw [show toksOfExprs (e :: e2 :: e3 :: rs) ++ [Tok.comma] =
          Tok.expr e :: Tok.comma ::
            (toksOfExprs (e2 :: e3 :: rs) ++ [Tok.comma]) from rfl]
      rw [show toksOfExprs (e2 :: e3 :: rs) ++ [Tok.comma] =
          Tok.expr e2 :: Tok.comma ::
            (toksOfExprs (e3 :: rs) ++ [Tok.comma]) from rfl] at ih ⊢
      simp [matchExprSeq, ih]

/-- A nonempty pair sequence followed by a trailing comma does not match the
pair-repetition pattern. -/
theorem matchPairSeq_trailing {α : Type} :
    (p : α × α) → (ps : List (α × α)) →
      matchPairSeq (toksOfPairs (p :: ps) ++ [Tok.comma]) = none
  | (_, _), [] => rfl
  | (k, v), (k2, v2) :: rest => by
    have ih := matchPairSeq_trailing (k2, v2) rest
    cases rest with
    | nil => rfl
    | cons p3 rs =>
      obtain ⟨k3, v3⟩ := p3
      rw [show toksOfPairs ((k, v) :: (k2, v2) :: (k3, v3) :: rs) ++ [Tok.comma] =
          Tok.expr k :: Tok.fatArrow :: Tok.expr v :: Tok.comma ::
            (toksOfPairs ((k2, v2) :: (k3, v3) :: rs) ++ [Tok.comma]) from rfl]
      rw [show toksOfPairs ((k2, v2) :: (k3, v3) :: rs) ++ [Tok.comma] =
          Tok.expr k2 :: Tok.fatArrow :: Tok.expr v2 :: Tok.comma ::
            (toksOfPairs ((k3, v3) :: rs) ++ [Tok.comma]) from rfl] at ih ⊢
      simp [matchPairSeq, ih]

/-! ## Lemmas about the snake-case transform

The output of `to_snake_case` is a `_`-joined list of nonempty, purely
alphanumeric, uppercase-free words; on such a string the transform is the
identity, which gives idempotence. -/

/-- Lowercasing never produces an uppercase character. -/
theorem isUpperA_toLowerA (c : Nat) : isUpperA (toLowerA c) = false := by
  by_cases h : 65 ≤ c ∧ c ≤ 90
  · have ht : toLowerA c = c + 32 := by simp [toLowerA, isUpperA, h]
    rw [ht]
    simp only [isUpperA]
    exact decide_eq_false (by omega)
  · have ht : toLowerA c = c := by simp [toLowerA, isUpperA, h]
    rw [ht]
    simp only [isUpperA]
    exact decide_eq_false h

/-- Lowercasing fixes characters that are not uppercase. -/
theorem toLowerA_eq_self (c : Nat) (h : isUpperA c = false) : toLowerA c = c := by
  simp [toLowerA, h]

/-- Lowercasing preserves alphanumerics. -/
theorem isAlnumA_toLowerA (c : Nat) (h : isAlnumA c = true) :
    isAlnumA (toLowerA c) = true := by
  simp only [isAlnumA, isUpperA, isLowerA, isDigitA, Bool.or_eq_true,
    decide_eq_true_eq] at h
  by_cases hu : 65 ≤ c ∧ c ≤ 90
  · have ht : toLowerA c = c + 32 := by simp [toLowerA, isUpperA, hu]
    rw [ht]
    simp only [isAlnumA, isUpperA, isLowerA, isDigitA, Bool.or_eq_true,
      decide_eq_true_eq]
    omega
  · have ht : toLowerA c = c := by simp [toLowerA, isUpperA, hu]
    rw [ht]
    simp only [isAlnumA, isUpperA, isLowerA, isDigitA, Bool.or_eq_true,
      decide_eq_true_eq]
    omega

/-- Lowercasing a word with no uppercase characters is the identity. -/
theorem map_toLowerA_self :
    (w : List Nat) → (∀ c ∈ w, isUpperA c = false) → w.map toLowerA = w
  | [], _ => rfl
  | c :: rest, h => by
    rw [List.map_cons, toLowerA_eq_self c (h c (List.mem_cons_self c rest)),
      map_toLowerA_self rest (fun x hx => h x (List.mem_cons_of_mem c hx))]

/-- Lowercasing every word of an uppercase-free word list is the identity. -/
theorem map_map_toLowerA_self :
    (ws : List (List Nat)) → (∀ w ∈ ws, ∀ c ∈ w, isUpperA c = false) →
      ws.map (List.map toLowerA) = ws
  | [], _ => rfl
  | w :: rest, h => by
    rw [List.map_cons, map_toLowerA_self w (h w (List.mem_cons_self w rest)),
      map_map_toLowerA_self rest (fun x hx => h x (List.mem_cons_of_mem w hx))]

/-- Splitting at a separator character drops it and opens a new piece. -/
theorem rsplit_cons_of_pos {p : Nat → Bool} {c : Nat} (h : p c = true)
    (rest : List Nat) : rsplit p (c :: rest) = [] :: rsplit p rest := by
  simp [rsplit, h]

/-- Splitting at a non-separator character prepends it to the first piece. -/
theorem rsplit_cons_of_neg {p : Nat → Bool} {c : Nat} (h : p c = false)
    (rest w : List Nat) (ws : List (List Nat)) (hr : rsplit p rest = w :: ws) :
    rsplit p (c :: rest) = (c :: w) :: ws := by
  simp [rsplit, h, hr]

/-- Splitting always yields at least one piece. -/
theorem rsplit_eq_cons (p : Nat → Bool) :
    (s : List Nat) → ∃ w ws, rsplit p s = w :: ws
  | [] => ⟨[], [], rfl⟩
  | c :: rest => by
    obtain ⟨w, ws, hr⟩ := rsplit_eq_cons p rest
    by_cases h : p c = true
    · exact ⟨[], rsplit p rest, rsplit_cons_of_pos h rest⟩
    · simp at h
      exact ⟨c :: w, ws, rsplit_cons_of_neg h rest w ws hr⟩

/-- Characters of `rsplit` pieces do not satisfy the separator predicate. -/
theorem rsplit_chars (p : Nat → Bool) :
    (s : List Nat) → ∀ w ∈ rsplit p s, ∀ c ∈ w, p c = false
  | [] => by
    intro w hw c hc
    simp [rsplit] at hw
    subst hw
    simp at hc
  | ch :: rest => by
    intro w hw c hc
    by_cases h : p ch = true
    · rw [rsplit_cons_of_pos h rest] at hw
      rcases List.mem_cons.mp hw with h2 | h2
      · subst h2; simp at hc
      · exact rsplit_chars p rest w h2 c hc
    · simp at h
      obtain ⟨w0, ws, hr⟩ := rsplit_eq_cons p rest
      rw [rsplit_cons_of_neg h rest w0 ws hr] at hw
      rcases List.mem_cons.mp hw with h2 | h2
      · subst h2
        rcases List.mem_cons.mp hc with h3 | h3
        · subst h3; exact h
        · exact rsplit_chars p rest w0 (hr ▸ List.mem_cons_self w0 ws) c h3
      · exact rsplit_chars p rest w (hr ▸ List.mem_cons_of_mem w0 h2) c hc

/-- A string with no separator characters is one piece. -/
theorem rsplit_no_sep (p : Nat → Bool) :
    (l : List Nat) → (∀ c ∈ l, p c = false) → rsplit p l = [l]
  | [], _ => rfl
  | c :: rest, h =>
    rsplit_cons_of_neg (h c (List.mem_cons_self c rest)) rest rest []
      (rsplit_no_sep p rest (fun x hx => h x (List.mem_cons_of_mem c hx)))

/-- Splitting a separator-free piece, a separator, and a remainder yields the
piece and then the split of the remainder. -/
theorem rsplit_append_sep (p : Nat → Bool) {sep : Nat} (hsep : p sep = true)
    (t : List Nat) :
    (w : List Nat) → (∀ c ∈ w, p c = false) →
      rsplit p (w ++ sep :: t) = w :: rsplit p t
  | [], _ => by
    rw [List.nil_append, rsplit_cons_of_pos hsep]
  | c :: w', hw => by
    rw [List.cons_append]
    exact rsplit_cons_of_neg (hw c (List.mem_cons_self c w')) _ w' (rsplit p t)
      (rsplit_append_sep p hsep t w' (fun x hx => hw x (List.mem_cons_of_mem c hx)))

/-- Every character of a word of the scanner comes from the accumulator, the
current character, or the remaining characters. -/
theorem splitChunkAux_sub :
    (rest : List Nat) → (mode : WordMode) → (acc : List Nat) → (c : Nat) →
      ∀ w ∈ splitChunkAux mode acc c rest, ∀ x ∈ w,
        x ∈ acc ∨ x = c ∨ x ∈ rest
  | [], mode, acc, c => by
    intro w hw x hx
    simp [splitChunkAux] at hw
    subst hw
    rcases List.mem_append.mp hx with h | h
    · exact Or.inl h
    · simp at h; exact Or.inr (Or.inl h)
  | next :: rs, mode, acc, c => by
    intro w hw x hx
    simp only [splitChunkAux] at hw
    generalize (if isLowerA c then WordMode.lower
      else if isUpperA c then WordMode.upper else mode) = nm at hw
    split_ifs at hw with h1 h2
    · rcases List.mem_cons.mp hw with h | h
      · subst h
        rcases List.mem_append.mp hx with h | h
        · exact Or.inl h
        · simp at h; exact Or.inr (Or.inl h)
      · rcases splitChunkAux_sub rs WordMode.boundary [] next w h x hx with h3 | h3 | h3
        · simp at h3
        · exact Or.inr (Or.inr (h3 ▸ List.mem_cons_self next rs))
        · exact Or.inr (Or.inr (List.mem_cons_of_mem next h3))
    · rcases List.mem_cons.mp hw with h | h
      · subst h; exact Or.inl hx
      · rcases splitChunkAux_sub rs WordMode.boundary [c] next w h x hx with h3 | h3 | h3
        · simp at h3; exact Or.inr (Or.inl h3)
        · exact Or.inr (Or.inr (h3 ▸ List.mem_cons_self next rs))
        · exact Or.inr (Or.inr (List.mem_cons_of_mem next h3))
    · rcases splitChunkAux_sub rs _ (acc ++ [c]) next w hw x hx with h3 | h3 | h3
      · rcases List.mem_append.mp h3 with h | h
        · exact Or.inl h
        · simp at h; exact Or.inr (Or.inl h)
      · exact Or.inr (Or.inr (h3 ▸ List.mem_cons_self next rs))
      · exact Or.inr (Or.inr (List.mem_cons_of_mem next h3))

/-- The scanner never emits an empty word (the accumulator is nonempty
whenever the mode is uppercase). -/
theorem splitChunkAux_ne_nil :
    (rest : List Nat) → (mode : WordMode) → (acc : List Nat) → (c : Nat) →
      (mode = WordMode.upper → acc ≠ []) →
      ∀ w ∈ splitChunkAux mode acc c rest, w ≠ []
  | [], mode, acc, c => by
    intro hinv w hw
    simp [splitChunkAux] at hw
    subst hw
    simp
  | next :: rs, mode, acc, c => by
    intro hinv w hw
    simp only [splitChunkAux] at hw
    generalize (if isLowerA c then WordMode.lower
      else if isUpperA c then WordMode.upper else mode) = nm at hw
    split_ifs at hw with h1 h2
    · rcases List.mem_cons.mp hw with h | h
      · subst h; simp
      · exact splitChunkAux_ne_nil rs WordMode.boundary [] next (by simp) w h
    · rcases List.mem_cons.mp hw with h | h
      · subst h; exact hinv h2.1
      · exact splitChunkAux_ne_nil rs WordMode.boundary [c] next (by simp) w h
    · exact splitChunkAux_ne_nil rs _ (acc ++ [c]) next (by simp) w hw

/-- On an uppercase-free chunk the scanner emits the whole chunk as one
word. -/
theorem splitChunkAux_no_upper :
    (rest : List Nat) → (mode : WordMode) → (acc : List Nat) → (c : Nat) →
      isUpperA c = false → (∀ x ∈ rest, isUpperA x = false) →
      mode ≠ WordMode.upper →
      splitChunkAux mode acc c rest = [acc ++ (c :: rest)]
  | [], mode, acc, c => by
    intro _ _ _
    simp [splitChunkAux]
  | next :: rs, mode, acc, c => by
    intro hc hrest hmode
    have hnext : isUpperA next = false := hrest next (List.mem_cons_self next rs)
    have hmode' :
        (if isLowerA c then WordMode.lower
          else if isUpperA c then WordMode.upper else mode) ≠ WordMode.upper := by
      rw [hc]
      split_ifs <;> simp_all
    simp only [splitChunkAux]
    rw [if_neg (by rw [hnext]; simp), if_neg (by rw [hc]; simp)]
    rw [splitChunkAux_no_upper rs _ (acc ++ [c]) next hnext
      (fun x hx => hrest x (List.mem_cons_of_mem next hx)) hmode']
    simp

/-- Every word `heckWords` produces is nonempty and purely alphanumeric. -/
theorem heckWords_props (s : List Nat) :
    ∀ w ∈ heckWords s, w ≠ [] ∧ ∀ c ∈ w, isAlnumA c = true := by
  intro w hw
  simp only [heckWords, List.mem_flatten, List.mem_map] at hw
  obtain ⟨l, ⟨chunk, hchunk, rfl⟩, hwl⟩ := hw
  have halnum : ∀ c ∈ chunk, isAlnumA c = true := by
    intro c hc
    have := rsplit_chars (fun c => !isAlnumA c) s chunk hchunk c hc
    simpa using this
  cases chunk with
  | nil => simp [splitChunk] at hwl
  | cons c rest =>
    constructor
    · exact splitChunkAux_ne_nil rest WordMode.boundary [] c (by simp) w hwl
    · intro x hx
      rcases splitChunkAux_sub rest WordMode.boundary [] c w hwl x hx with h | h | h
      · simp at h
      · exact halnum x (h ▸ List.mem_cons_self c rest)
      · exact halnum x (List.mem_cons_of_mem c h)

/-- Splitting the `_`-join of nonempty, alphanumeric, uppercase-free words
recovers exactly those words. -/
theorem heckWords_joinSep :
    (ws : List (List Nat)) → (∀ w ∈ ws, w ≠ []) →
      (∀ w ∈ ws, ∀ c ∈ w, isAlnumA c = true) →
      (∀ w ∈ ws, ∀ c ∈ w, isUpperA c = false) →
      heckWords (joinSep [95] ws) = ws
  | [], _, _, _ => rfl
  | [w], hne, halnum, hnup => by
    have hw : ∀ c ∈ w, (fun c => !isAlnumA c) c = false := by
      intro c hc
      simp [halnum w (List.mem_cons_self w []) c hc]
    rw [show joinSep [95] [w] = w from rfl]
    rw [heckWords, rsplit_no_sep _ w hw]
    cases hwc : w with
    | nil => exact absurd hwc (hne w (List.mem_cons_self w []))
    | cons c rest =>
      rw [List.map_singleton, splitChunk,
        splitChunkAux_no_upper rest WordMode.boundary [] c
          (hnup w (List.mem_cons_self w []) c (hwc ▸ List.mem_cons_self c rest))
          (fun x hx => hnup w (List.mem_cons_self w []) x
            (hwc ▸ List.mem_cons_of_mem c hx))
          (by simp)]
      simp
  | w :: x :: rest, hne, halnum, hnup => by
    have hw : ∀ c ∈ w, (fun c => !isAlnumA c) c = false := by
      intro c hc
      simp [halnum w (List.mem_cons_self w (x :: rest)) c hc]
    have ih := heckWords_joinSep (x :: rest)
      (fun y hy => hne y (List.mem_cons_of_mem w hy))
      (fun y hy => halnum y (List.mem_cons_of_mem w hy))
      (fun y hy => hnup y (List.mem_cons_of_mem w hy))
    have hjoin : joinSep [95] (w :: x :: rest) =
        w ++ 95 :: joinSep [95] (x :: rest) := by
      rw [joinSep]
      simp
    rw [hjoin, heckWords,
      rsplit_append_sep (fun c => !isAlnumA c) (by decide)
        (joinSep [95] (x :: rest)) w hw]
    rw [List.map_cons, List.flatten_cons]
    rw [heckWords] at ih
    rw [ih]
    cases hwc : w with
    | nil => exact absurd hwc (hne w (List.mem_cons_self w (x :: rest)))
    | cons c crest =>
      rw [splitChunk,
        splitChunkAux_no_upper crest WordMode.boundary [] c
          (hnup w (List.mem_cons_self w (x :: rest)) c
            (hwc ▸ List.mem_cons_self c crest))
          (fun y hy => hnup w (List.mem_cons_self w (x :: rest)) y
            (hwc ▸ List.mem_cons_of_mem c hy))
          (by simp)]
      simp

/-! ## The claims -/

/-- C1: For every annotated struct declaration and every literal sequence
`e1, ..., en`, the macro emitted by the back-insertion variant
`derive_vec_lit` expands to exactly one zero-argument constructor call
followed by exactly `n` single-argument `push` calls in the caller's
left-to-right order, and the block yields the constructed instance: against
any implementation of the target type, the value is the constructor's result
with the mutations applied in that order. -/
theorem claim_C1 {α σ : Type} (ident : List Nat) (fields : Fields)
    (elems : List α) (newFn : List Nat → List α → σ)
    (methodFn : σ → List Nat → List α → σ) :
    ∃ g : GenDef,
      derive_vec_lit ⟨ident, Data.dstruct fields⟩ = Except.ok g ∧
      expandGen g (toksOfExprs elems) = some
        { stmts := Call.ctor ident [] ::
            elems.map (fun e => Call.method (ofStr "push") [e]),
          returnsTemp := true } ∧
      evalExpansion newFn methodFn
        { stmts := Call.ctor ident [] ::
            elems.map (fun e => Call.method (ofStr "push") [e]),
          returnsTemp := true } =
        some (elems.foldl (fun st e => methodFn st (ofStr "push") [e])
          (newFn ident [])) := by
  refine ⟨_, rfl, ?_, ?_⟩
  · simp [derive_vec_lit, expandGen, matchExprSeq_toksOfExprs]
  · simp [evalExpansion, runMethods_map_single]

/-- C2: All four generators name the emitted macro by the same snake-case
transform of the type identifier, with no other transformation; in
particular `AbcDef` yields `abc_def`. -/
theorem claim_C2 (ident : List Nat) (fields : Fields) :
    ((derive_vec_lit ⟨ident, Data.dstruct fields⟩).map GenDef.name =
        Except.ok (to_snake_case ident) ∧
      (derive_vec_front_lit ⟨ident, Data.dstruct fields⟩).map GenDef.name =
        Except.ok (to_snake_case ident) ∧
      (derive_set_lit ⟨ident, Data.dstruct fields⟩).map GenDef.name =
        Except.ok (to_snake_case ident) ∧
      (derive_map_lit ⟨ident, Data.dstruct fields⟩).map GenDef.name =
        Except.ok (to_snake_case ident)) ∧
    to_snake_case (ofStr "AbcDef") = ofStr "abc_def" := by
  exact ⟨⟨rfl, rfl, rfl, rfl⟩, by decide⟩

/-- C3: Every one of the four generators fails with the fatal
`expected a struct` failure on an enum or union declaration, whatever its
payload, emitting no macro definition; and succeeds on a struct declaration,
whatever its field layout. -/
theorem claim_C3 (ident : List Nat) (variants : List (List Nat))
    (ufields fields : Fields) :
    (derive_vec_lit ⟨ident, Data.denum variants⟩ =
        Except.error (ofStr "expected a struct") ∧
      derive_vec_front_lit ⟨ident, Data.denum variants⟩ =
        Except.error (ofStr "expected a struct") ∧
      derive_set_lit ⟨ident, Data.denum variants⟩ =
        Except.error (ofStr "expected a struct") ∧
      derive_map_lit ⟨ident, Data.denum variants⟩ =
        Except.error (ofStr "expected a struct")) ∧
    (derive_vec_lit ⟨ident, Data.dunion ufields⟩ =
        Except.error (ofStr "expected a struct") ∧
      derive_vec_front_lit ⟨ident, Data.dunion ufields⟩ =
        Except.error (ofStr "expected a struct") ∧
      derive_set_lit ⟨ident, Data.dunion ufields⟩ =
        Except.error (ofStr "expected a struct") ∧
      derive_map_lit ⟨ident, Data.dunion ufields⟩ =
        Except.error (ofStr "expected a struct")) ∧
    ((∃ g, derive_vec_lit ⟨ident, Data.dstruct fields⟩ = Except.ok g) ∧
      (∃ g, derive_vec_front_lit ⟨ident, Data.dstruct fields⟩ = Except.ok g) ∧
      (∃ g, derive_set_lit ⟨ident, Data.dstruct fields⟩ = Except.ok g) ∧
      (∃ g, derive_map_lit ⟨ident, Data.dstruct fields⟩ = Except.ok g)) := by
  exact ⟨⟨rfl, rfl, rfl, rfl⟩, ⟨rfl, rfl, rfl, rfl⟩,
    ⟨_, rfl⟩, ⟨_, rfl⟩, ⟨_, rfl⟩, ⟨_, rfl⟩⟩

/-- C4: The front-insertion variant's macro expands to one constructor call
followed by `n` `push_front` calls in the caller's left-to-right order; its
emitted definition is identical to the back-insertion variant's except for
the mutation method; and because each call prepends, the resulting logical
sequence (list model of `push_front`) is the reverse of the literal order. -/
theorem claim_C4 {α : Type} (ident : List Nat) (fields : Fields)
    (elems : List α) :
    ∃ gf gv : GenDef,
      derive_vec_front_lit ⟨ident, Data.dstruct fields⟩ = Except.ok gf ∧
      derive_vec_lit ⟨ident, Data.dstruct fields⟩ = Except.ok gv ∧
      gf.rule.methodName = ofStr "push_front" ∧
      gf.name = gv.name ∧ gf.structName = gv.structName ∧
      gf.rule.matcherDelim = gv.rule.matcherDelim ∧
      gf.rule.pat = gv.rule.pat ∧
      expandGen gf (toksOfExprs elems) = some
        { stmts := Call.ctor ident [] ::
            elems.map (fun e => Call.method (ofStr "push_front") [e]),
          returnsTemp := true } ∧
      evalExpansion (fun _ _ => ([] : List α))
        (fun st _ args => args ++ st)
        { stmts := Call.ctor ident [] ::
            elems.map (fun e => Call.method (ofStr "push_front") [e]),
          returnsTemp := true } = some elems.reverse := by
  refine ⟨_, _, rfl, rfl, rfl, rfl, rfl, rfl, rfl, ?_, ?_⟩
  · simp [derive_vec_front_lit, expandGen, matchExprSeq_toksOfExprs]
  · simp only [evalExpansion, runMethods_map_single]
    simp [foldl_prepend_reverse]

/-- C5: The pairwise-insertion variant's macro accepts `key => value` pairs
and expands to exactly one zero-argument constructor call followed by
exactly `n` two-argument `insert` calls with `(ki, vi)` in left-to-right
literal order, yielding the instance; duplicate keys are passed through to
`insert` unmodified, one call per written pair, with no deduplication. -/
theorem claim_C5 {α σ : Type} (ident : List Nat) (fields : Fields)
    (pairs : List (α × α)) (newFn : List Nat → List α → σ)
    (methodFn : σ → List Nat → List α → σ) :
    ∃ g : GenDef,
      derive_map_lit ⟨ident, Data.dstruct fields⟩ = Except.ok g ∧
      g.rule.pat = RulePat.pairList ∧
      g.rule.methodName = ofStr "insert" ∧
      expandGen g (toksOfPairs pairs) = some
        { stmts := Call.ctor ident [] ::
            pairs.map (fun p => Call.method (ofStr "insert") [p.1, p.2]),
          returnsTemp := true } ∧
      evalExpansion newFn methodFn
        { stmts := Call.ctor ident [] ::
            pairs.map (fun p => Call.method (ofStr "insert") [p.1, p.2]),
          returnsTemp := true } =
        some (pairs.foldl (fun st p => methodFn st (ofStr "insert") [p.1, p.2])
          (newFn ident [])) := by
  refine ⟨_, rfl, rfl, rfl, ?_, ?_⟩
  · simp [derive_map_lit, expandGen, matchPairSeq_toksOfPairs]
  · simp [evalExpansion, runMethods_map_pair]

/-- C6 counterexample: contrary to the claim, the set-insertion variant's
emitted rule is not written with a brace matcher; its matcher delimiter is
identical to the back-insertion variant's (both parenthesized), so the two
emitted macros do not differ in delimiter at all. -/
theorem claim_C6_counterexample :
    (derive_set_lit ⟨ofStr "MyStruct", Data.dstruct Fields.unit⟩).map
        (fun g => g.rule.matcherDelim) =
      (derive_vec_lit ⟨ofStr "MyStruct", Data.dstruct Fields.unit⟩).map
        (fun g => g.rule.matcherDelim) ∧
    (derive_set_lit ⟨ofStr "MyStruct", Data.dstruct Fields.unit⟩).map
        (fun g => g.rule.matcherDelim) ≠ Except.ok Delim.brace := by
  refine ⟨rfl, fun h => ?_⟩
  simp [derive_set_lit, Except.map] at h

/-- C6 (amended): The macro emitted by the set-insertion variant differs
from the back-insertion variant's in exactly one way: the per-element
mutation call is the single-argument `insert` method instead of `push`; the
name, struct name, matcher delimiter and pattern coincide, and duplicate
literal elements are passed through unmodified as separate `insert` calls in
literal order, with no deduplication by the generator. -/
theorem claim_C6 {α : Type} (ident : List Nat) (fields : Fields)
    (elems : List α) :
    ∃ gs gv : GenDef,
      derive_set_lit ⟨ident, Data.dstruct fields⟩ = Except.ok gs ∧
      derive_vec_lit ⟨ident, Data.dstruct fields⟩ = Except.ok gv ∧
      gs.rule.methodName = ofStr "insert" ∧
      gv.rule.methodName = ofStr "push" ∧
      gs.name = gv.name ∧ gs.structName = gv.structName ∧
      gs.rule.matcherDelim = gv.rule.matcherDelim ∧
      gs.rule.pat = gv.rule.pat ∧
      expandGen gs (toksOfExprs elems) = some
        { stmts := Call.ctor ident [] ::
            elems.map (fun e => Call.method (ofStr "insert") [e]),
          returnsTemp := true } := by
  refine ⟨_, _, rfl, rfl, rfl, rfl, rfl, rfl, rfl, rfl, ?_⟩
  simp [derive_set_lit, expandGen, matchExprSeq_toksOfExprs]

/-- C7: For every annotated struct (any field layout, including none), each
of the four emitted macros, invoked with zero literal elements, expands to
exactly one zero-argument constructor call, zero mutation calls, and yields
the freshly constructed instance. -/
theorem claim_C7 {α σ : Type} (ident : List Nat) (fields : Fields)
    (newFn : List Nat → List α → σ) (methodFn : σ → List Nat → List α → σ) :
    (∃ g, derive_vec_lit ⟨ident, Data.dstruct fields⟩ = Except.ok g ∧
        expandGen g ([] : List (Tok α)) =
          some { stmts := [Call.ctor ident []], returnsTemp := true }) ∧
    (∃ g, derive_vec_front_lit ⟨ident, Data.dstruct fields⟩ = Except.ok g ∧
        expandGen g ([] : List (Tok α)) =
          some { stmts := [Call.ctor ident []], returnsTemp := true }) ∧
    (∃ g, derive_set_lit ⟨ident, Data.dstruct fields⟩ = Except.ok g ∧
        expandGen g ([] : List (Tok α)) =
          some { stmts := [Call.ctor ident []], returnsTemp := true }) ∧
    (∃ g, derive_map_lit ⟨ident, Data.dstruct fields⟩ = Except.ok g ∧
        expandGen g ([] : List (Tok α)) =
          some { stmts := [Call.ctor ident []], returnsTemp := true }) ∧
    evalExpansion newFn methodFn
      { stmts := [Call.ctor ident []], returnsTemp := true } =
      some (newFn ident []) := by
  exact ⟨⟨_, rfl, rfl⟩, ⟨_, rfl, rfl⟩, ⟨_, rfl, rfl⟩, ⟨_, rfl, rfl⟩, rfl⟩

/-- C9: Each generator's output depends only on the declared identifier and
the shape discriminant: two inputs with the same identifier and the same
shape discriminant—however different their field lists or payloads—produce
identical output from all four generators. -/
theorem claim_C9 (i1 i2 : DeriveInput) (hid : i1.ident = i2.ident)
    (hsh : shapeOf i1.data = shapeOf i2.data) :
    derive_vec_lit i1 = derive_vec_lit i2 ∧
    derive_vec_front_lit i1 = derive_vec_front_lit i2 ∧
    derive_set_lit i1 = derive_set_lit i2 ∧
    derive_map_lit i1 = derive_map_lit i2 := by
  obtain ⟨id1, d1⟩ := i1
  obtain ⟨id2, d2⟩ := i2
  simp only at hid
  subst hid
  cases d1 <;> cases d2 <;> simp [shapeOf] at hsh <;>
    exact ⟨rfl, rfl, rfl, rfl⟩

/-- C9 witness: two structs named `MyStruct`, one with a named field and one
a two-field tuple struct, get identical generated output from all four
variants. -/
theorem claim_C9_witness :
    derive_vec_lit ⟨ofStr "MyStruct",
        Data.dstruct (Fields.named [ofStr "a"])⟩ =
      derive_vec_lit ⟨ofStr "MyStruct", Data.dstruct (Fields.unnamed 2)⟩ ∧
    derive_vec_front_lit ⟨ofStr "MyStruct",
        Data.dstruct (Fields.named [ofStr "a"])⟩ =
      derive_vec_front_lit ⟨ofStr "MyStruct", Data.dstruct (Fields.unnamed 2)⟩ ∧
    derive_set_lit ⟨ofStr "MyStruct",
        Data.dstruct (Fields.named [ofStr "a"])⟩ =
      derive_set_lit ⟨ofStr "MyStruct", Data.dstruct (Fields.unnamed 2)⟩ ∧
    derive_map_lit ⟨ofStr "MyStruct",
        Data.dstruct (Fields.named [ofStr "a"])⟩ =
      derive_map_lit ⟨ofStr "MyStruct", Data.dstruct (Fields.unnamed 2)⟩ :=
  claim_C9 ⟨ofStr "MyStruct", Data.dstruct (Fields.named [ofStr "a"])⟩
    ⟨ofStr "MyStruct", Data.dstruct (Fields.unnamed 2)⟩ rfl rfl

/-- C10: The single rule of every emitted macro rejects a trailing comma:
for every nonempty literal sequence (head `e`, tail `es`), the invocation
with a comma appended after the final element fails to match, in all four
variants (after the final pair, for the pairwise variant). -/
theorem claim_C10 {α : Type} (ident : List Nat) (fields : Fields) (e : α)
    (es : List α) (p : α × α) (ps : List (α × α)) :
    (∃ g, derive_vec_lit ⟨ident, Data.dstruct fields⟩ = Except.ok g ∧
        expandGen g (toksOfExprs (e :: es) ++ [Tok.comma]) = none) ∧
    (∃ g, derive_vec_front_lit ⟨ident, Data.dstruct fields⟩ = Except.ok g ∧
        expandGen g (toksOfExprs (e :: es) ++ [Tok.comma]) = none) ∧
    (∃ g, derive_set_lit ⟨ident, Data.dstruct fields⟩ = Except.ok g ∧
        expandGen g (toksOfExprs (e :: es) ++ [Tok.comma]) = none) ∧
    (∃ g, derive_map_lit ⟨ident, Data.dstruct fields⟩ = Except.ok g ∧
        expandGen g (toksOfPairs (p :: ps) ++ [Tok.comma]) = none) := by
  refine ⟨⟨_, rfl, ?_⟩, ⟨_, rfl, ?_⟩, ⟨_, rfl, ?_⟩, ⟨_, rfl, ?_⟩⟩
  · simp [derive_vec_lit, expandGen, matchExprSeq_trailing]
  · simp [derive_vec_front_lit, expandGen, matchExprSeq_trailing]
  · simp [derive_set_lit, expandGen, matchExprSeq_trailing]
  · simp [derive_map_lit, expandGen, matchPairSeq_trailing]

/-- C8: The name-derivation transform is idempotent: applying
`to_snake_case` to its own output returns the output unchanged, for every
identifier string. -/
theorem claim_C8 (s : List Nat) :
    to_snake_case (to_snake_case s) = to_snake_case s := by
  have hprops := heckWords_props s
  have hne : ∀ w ∈ (heckWords s).map (List.map toLowerA), w ≠ [] := by
    intro w hw
    obtain ⟨w0, hw0, rfl⟩ := List.mem_map.mp hw
    have h0 := (hprops w0 hw0).1
    simpa using h0
  have halnum : ∀ w ∈ (heckWords s).map (List.map toLowerA),
      ∀ c ∈ w, isAlnumA c = true := by
    intro w hw c hc
    obtain ⟨w0, hw0, rfl⟩ := List.mem_map.mp hw
    obtain ⟨c0, hc0, rfl⟩ := List.mem_map.mp hc
    exact isAlnumA_toLowerA c0 ((hprops w0 hw0).2 c0 hc0)
  have hnup : ∀ w ∈ (heckWords s).map (List.map toLowerA),
      ∀ c ∈ w, isUpperA c = false := by
    intro w hw c hc
    obtain ⟨w0, _, rfl⟩ := List.mem_map.mp hw
    obtain ⟨c0, _, rfl⟩ := List.mem_map.mp hc
    exact isUpperA_toLowerA c0
  calc to_snake_case (to_snake_case s)
      = joinSep [95]
          ((heckWords (joinSep [95] ((heckWords s).map (List.map toLowerA)))).map
            (List.map toLowerA)) := rfl
    _ = joinSep [95]
          (((heckWords s).map (List.map toLowerA)).map (List.map toLowerA)) := by
        rw [heckWords_joinSep _ hne halnum hnup]
    _ = joinSep [95] ((heckWords s).map (List.map toLowerA)) := by
        rw [map_map_toLowerA_self _ hnup]
    _ = to_snake_case s := rfl

end DeriveLit
